import Mathlib

/-!
A shallow embedding of the range-selection core of the `choose` utility
(`src/choice.rs`) and proofs about it.

Tokens are opaque values of an arbitrary type `α`; a token source is a finite
`List α`. The emitter contract `write_choice(token, has_more)` is modelled by
returning the list of `(token, has_more)` pairs in emission order. Rust
panics (failed `unwrap`, slice-index faults, arithmetic underflow on `usize`)
are modelled by `Option`: a `none` result means the selection call panics.
Machine integers: Rust `isize` values are embedded as `Int` together with
explicit `isize` range checks exactly where the source performs a fallible
conversion or checked operation; `usize` indices are embedded as `Nat`.
-/

namespace ChooseSpec

/-- Rust `isize::MIN` (64-bit), the value on which `isize::abs` faults. -/
def isizeMin : Int := -9223372036854775808

/-- Rust `isize::MAX` (64-bit). -/
def isizeMax : Int := 9223372036854775807

lemma isizeMin_eq : isizeMin = -9223372036854775808 := rfl

lemma isizeMax_eq : isizeMax = 9223372036854775807 := rfl

/-- Rust `usize::try_from` applied to an `isize` value (`.try_into()` in the
source): succeeds exactly on non-negative input. -/
def try_into_usize (n : Int) : Option Nat :=
  if 0 ≤ n then some n.toNat else none

/-- Rust `isize::checked_sub`: `none` models the overflow (and hence the
`unwrap` panic) case. -/
def checked_sub_isize (a b : Int) : Option Int :=
  if isizeMin ≤ a - b ∧ a - b ≤ isizeMax then some (a - b) else none

/-- The `Choice` struct of `src/choice.rs`: raw signed `start`/`end` bounds plus
the two flags computed once at construction. The Rust field `end` is a Lean
keyword and is rendered `end'`. -/
structure Choice where
  start : Int
  end' : Int
  negative_index : Bool
  reversed : Bool

/-- `Choice::new`: `negative_index = start < 0 || end < 0`,
`reversed = end < start` (raw signed comparisons). -/
def Choice.new (start end' : Int) : Choice :=
  { start := start, end' := end',
    negative_index := decide (start < 0) || decide (end' < 0),
    reversed := decide (end' < start) }

lemma Choice.new_start (sb eb : Int) : (Choice.new sb eb).start = sb := rfl

lemma Choice.new_end (sb eb : Int) : (Choice.new sb eb).end' = eb := rfl

lemma Choice.new_negative_index (sb eb : Int) :
    (Choice.new sb eb).negative_index = (decide (sb < 0) || decide (eb < 0)) := rfl

lemma Choice.new_reversed (sb eb : Int) :
    (Choice.new sb eb).reversed = decide (eb < sb) := rfl

/-- Pair every token of a sequence with the `has_more` flag obtained by
one-token lookahead (`peek`) on that same sequence: `true` iff more tokens of
the sequence follow. This models emission from a peekable iterator, as in the
final loop of `print_choice_reverse`. -/
def emit_with_flags {α : Type} : List α → List (α × Bool)
  | [] => []
  | t :: rest => (t, !rest.isEmpty) :: emit_with_flags rest

/-- Body of `Choice::print_choice_loop_max_items`: the Rust loop
`for i in 0..=max_items` pulling from a peekable iterator; each emitted token
carries the flag `peek_iter.peek().is_some() && i != max_items`. -/
def print_choice_loop_go {α : Type} (max_items : Int) : List α → Int → List (α × Bool)
  | [], _ => []
  | t :: rest, i =>
    if max_items < i then []
    else (t, !rest.isEmpty && decide (i ≠ max_items)) ::
      print_choice_loop_go max_items rest (i + 1)

/-- `Choice::print_choice_loop_max_items`. -/
def Choice.print_choice_loop_max_items {α : Type} (l : List α) (max_items : Int) :
    List (α × Bool) :=
  print_choice_loop_go max_items l 0

/-- The non-reverse, non-negative arm of `Choice::print_choice_generic`:
`if start > 0 { iter.nth((start - 1).try_into().unwrap()); }` followed by
`print_choice_loop_max_items(iter, .., end.checked_sub(start).unwrap())`.
`iter.nth(n)` consumes `n + 1` tokens, hence the `drop (n + 1)`. -/
def Choice.print_choice_forward {α : Type} (c : Choice) (l : List α) :
    Option (List (α × Bool)) :=
  (if 0 < c.start then (try_into_usize (c.start - 1)).map (fun n => l.drop (n + 1))
   else some l).bind
    (fun l2 => (checked_sub_isize c.end' c.start).map
      (fun range => Choice.print_choice_loop_max_items l2 range))

/-- `Choice::print_choice_reverse`: skip the first `end` tokens
(`iter.nth((end - 1).try_into().unwrap())` when `end > 0`), collect up to
`start - end + 1` tokens into `stack` (the `for i in 0..=(start - end)` loop
pushes then breaks once `start <= end + i`), and emit `stack` reversed through
a peekable iterator. -/
def Choice.print_choice_reverse {α : Type} (c : Choice) (l : List α) :
    Option (List (α × Bool)) :=
  (if 0 < c.end' then (try_into_usize (c.end' - 1)).map (fun n => l.drop (n + 1))
   else some l).map
    (fun l2 => emit_with_flags
      (if c.start - c.end' < 0 then ([] : List α)
       else l2.take ((c.start - c.end').toNat + 1)).reverse)

/-- One bound of `Choice::get_negative_start_end`: a non-negative bound passes
through (`try_into().unwrap()`, always fine for `isize → usize`); a negative
bound `n` becomes `vec.len().checked_sub(n.abs().try_into().unwrap()).unwrap()`.
`none` models the two panics: `abs` faulting on `isize::MIN`, and
`checked_sub` returning `None` (i.e. `|n| > len`) being unwrapped. -/
def resolve_bound (n : Int) (len : Nat) : Option Nat :=
  if 0 ≤ n then some n.toNat
  else if n = isizeMin then none
  else if n.natAbs ≤ len then some (len - n.natAbs)
  else none

/-- `Choice::get_negative_start_end` over the materialized token count. -/
def Choice.get_negative_start_end (c : Choice) (len : Nat) : Option (Nat × Nat) :=
  match resolve_bound c.start len, resolve_bound c.end' len with
  | some s, some e => some (s, e)
  | _, _ => none

/-- `Choice::print_choice_negative`: materialize the tokens, resolve both
bounds, then
`if end > start` emit `vec[start..min(end, len-1)]` each with flag `true` and
`vec[min(end, len-1)]` with flag `false`;
`else if self.start < 0` emit `vec[end+1..=min(start, len-1)]` reversed, each
with `true`, then `vec[end]` with `false`; else emit nothing.
`none` models the panics: resolution unwraps, `vec.len() - 1` underflow on an
empty buffer, and out-of-range slice indices. -/
def Choice.print_choice_negative {α : Type} (c : Choice) (l : List α) :
    Option (List (α × Bool)) :=
  match c.get_negative_start_end l.length with
  | none => none
  | some (s, e) =>
    if s < e then
      if l.length = 0 then none
      else if s ≤ min e (l.length - 1) then
        match l.drop (min e (l.length - 1)) with
        | [] => none
        | t :: _ =>
          some (((l.drop s).take (min e (l.length - 1) - s)).map (fun x => (x, true))
            ++ [(t, false)])
      else none
    else if c.start < 0 then
      if l.length = 0 then none
      else if e ≤ min s (l.length - 1) then
        match l.drop e with
        | [] => none
        | t :: _ =>
          some ((((l.drop (e + 1)).take (min s (l.length - 1) - e)).reverse).map
              (fun x => (x, true)) ++ [(t, false)])
      else none
    else some []

/-- `Choice::print_choice_generic`: the strategy dispatch. -/
def Choice.print_choice_generic {α : Type} (c : Choice) (l : List α) :
    Option (List (α × Bool)) :=
  if c.reversed && !c.negative_index then c.print_choice_reverse l
  else if c.negative_index then c.print_choice_negative l
  else c.print_choice_forward l

/-- Rust `char::len_utf8`. -/
def utf8Size (c : Char) : Nat :=
  if c.toNat < 0x80 then 1
  else if c.toNat < 0x800 then 2
  else if c.toNat < 0x10000 then 3
  else 4

/-- Byte length of a line (`String::len` in Rust is the UTF-8 byte count). -/
def byteLen : List Char → Nat
  | [] => 0
  | c :: rest => utf8Size c + byteLen rest

/-- Rust string slicing `&line[0..n]` at byte index `n`, returning the decoded
characters: `none` models the slice panic when `n` is not a character boundary
or exceeds the byte length. -/
def sliceChars : List Char → Nat → Option (List Char)
  | _, 0 => some []
  | [], _ + 1 => none
  | c :: rest, n + 1 =>
    if utf8Size c ≤ n + 1 then (sliceChars rest (n + 1 - utf8Size c)).map (fun l => c :: l)
    else none

/-- The character-wise tokenization step of `Choice::print_choice`:
`line[0..line.len() - 1].chars()`. On the empty string `line.len() - 1`
underflows and the slice faults (`none`); on a line whose final character is
multi-byte the slice hits a non-boundary and panics (`none`). -/
def char_wise_tokens (line : List Char) : Option (List Char) :=
  if byteLen line = 0 then none
  else sliceChars line (byteLen line - 1)

/-- The `character_wise` branch of `Choice::print_choice`. -/
def Choice.print_choice_character_wise (c : Choice) (line : List Char) :
    Option (List (Char × Bool)) :=
  match char_wise_tokens line with
  | none => none
  | some ts => c.print_choice_generic ts

/-- Tokens of a selection outcome, forgetting the separator flags. -/
def tokensOf {α : Type} (o : Option (List (α × Bool))) : Option (List α) :=
  o.map (List.map Prod.fst)

/-- The contiguous sub-list of tokens at indices `a` through `b`, inclusive. -/
def sliceIncl {α : Type} (l : List α) (a b : Nat) : List α :=
  (l.drop a).take (b + 1 - a)

/-! ### Basic lemmas about emission -/

lemma map_fst_emit_with_flags {α : Type} : ∀ l : List α,
    (emit_with_flags l).map Prod.fst = l
  | [] => rfl
  | _ :: rest => by
    simp only [emit_with_flags, List.map_cons, map_fst_emit_with_flags rest]

lemma emit_with_flags_append_last {α : Type} (xs : List α) (t : α) :
    emit_with_flags (xs ++ [t]) = xs.map (fun x => (x, true)) ++ [(t, false)] := by
  induction xs with
  | nil => rfl
  | cons a xs ih =>
    have hne : (xs ++ [t]).isEmpty = false := by cases xs <;> rfl
    simp only [List.cons_append, emit_with_flags, List.append_eq, hne, ih, List.map_cons,
      Bool.not_false]

lemma drop_cons_of_lt {α : Type} (l : List α) (n : Nat) (h : n < l.length) :
    ∃ t rest, l.drop n = t :: rest := by
  cases hd : l.drop n with
  | nil =>
    have hlen : (l.drop n).length = l.length - n := List.length_drop n l
    rw [hd] at hlen
    simp only [List.length_nil] at hlen
    omega
  | cons t rest => exact ⟨t, rest, rfl⟩

lemma take_succ_of_drop {α : Type} : ∀ (m : List α) (k : Nat) (t : α) (rest : List α),
    m.drop k = t :: rest → m.take (k + 1) = m.take k ++ [t] := by
  intro m
  induction m with
  | nil => intro k t rest h; rw [List.drop_nil] at h; exact absurd h (by simp)
  | cons a m' ih =>
    intro k t rest h
    cases k with
    | zero =>
      rw [List.drop_zero] at h
      cases h
      rfl
    | succ k' =>
      have h' : m'.drop k' = t :: rest := h
      rw [List.take_succ_cons, List.take_succ_cons, ih k' t rest h', List.cons_append]

lemma loop_go_emit {α : Type} (m : Int) (l : List α) : ∀ i : Int,
    print_choice_loop_go m l i = emit_with_flags (l.take (m + 1 - i).toNat) := by
  induction l with
  | nil => intro i; simp [print_choice_loop_go, emit_with_flags]
  | cons t rest ih =>
    intro i
    by_cases hmi : m < i
    · have h0 : (m + 1 - i).toNat = 0 := by omega
      simp [print_choice_loop_go, hmi, h0, emit_with_flags]
    · have h1 : (m + 1 - i).toNat = (m - i).toNat + 1 := by omega
      rw [h1]
      simp only [print_choice_loop_go, if_neg hmi, List.take_succ_cons, emit_with_flags]
      rw [ih (i + 1)]
      have h2 : (m + 1 - (i + 1)).toNat = (m - i).toNat := by omega
      rw [h2]
      congr 1
      by_cases him : i = m
      · subst him
        have h3 : (i - i).toNat = 0 := by omega
        simp [h3]
      · have h4 : ∃ k, (m - i).toNat = k + 1 := ⟨(m - i).toNat - 1, by omega⟩
        obtain ⟨k, hk⟩ := h4
        rw [hk]
        cases rest with
        | nil => simp
        | cons r rs => simp [him, List.take_succ_cons]

/-! ### Closed forms for the three strategies under their dispatch preconditions -/

lemma forward_eq {α : Type} (c : Choice) (l : List α)
    (h0 : 0 ≤ c.start) (h1 : c.start ≤ c.end') (h2 : c.end' ≤ isizeMax) :
    c.print_choice_forward l =
      some (emit_with_flags ((l.drop c.start.toNat).take ((c.end' - c.start).toNat + 1))) := by
  unfold Choice.print_choice_forward
  have hskip : (if 0 < c.start then (try_into_usize (c.start - 1)).map (fun n => l.drop (n + 1))
      else some l) = some (l.drop c.start.toNat) := by
    by_cases hs : 0 < c.start
    · rw [if_pos hs]
      unfold try_into_usize
      rw [if_pos (by omega : (0 : Int) ≤ c.start - 1)]
      have he : (c.start - 1).toNat + 1 = c.start.toNat := by omega
      rw [Option.map_some', he]
    · rw [if_neg hs]
      have he : c.start.toNat = 0 := by omega
      rw [he, List.drop_zero]
  rw [hskip]
  have hsub : checked_sub_isize c.end' c.start = some (c.end' - c.start) := by
    unfold checked_sub_isize
    rw [if_pos]
    refine ⟨?_, by omega⟩
    have := isizeMin_eq
    omega
  rw [Option.some_bind, hsub, Option.map_some', Choice.print_choice_loop_max_items,
    loop_go_emit]
  have he : (c.end' - c.start + 1 - 0).toNat = (c.end' - c.start).toNat + 1 := by omega
  rw [he]

lemma reverse_eq {α : Type} (c : Choice) (l : List α)
    (h0 : 0 ≤ c.end') (h1 : c.end' < c.start) :
    c.print_choice_reverse l =
      some (emit_with_flags
        (((l.drop c.end'.toNat).take ((c.start - c.end').toNat + 1)).reverse)) := by
  unfold Choice.print_choice_reverse
  have hskip : (if 0 < c.end' then (try_into_usize (c.end' - 1)).map (fun n => l.drop (n + 1))
      else some l) = some (l.drop c.end'.toNat) := by
    by_cases hs : 0 < c.end'
    · rw [if_pos hs]
      unfold try_into_usize
      rw [if_pos (by omega : (0 : Int) ≤ c.end' - 1)]
      have he : (c.end' - 1).toNat + 1 = c.end'.toNat := by omega
      rw [Option.map_some', he]
    · rw [if_neg hs]
      have he : c.end'.toNat = 0 := by omega
      rw [he, List.drop_zero]
  rw [hskip, Option.map_some', if_neg (by omega : ¬ c.start - c.end' < 0)]

/-! ### Negative-index resolution -/

lemma resolve_bound_nonneg (n : Int) (len : Nat) (h : 0 ≤ n) :
    resolve_bound n len = some n.toNat := by
  unfold resolve_bound
  rw [if_pos h]

lemma resolve_bound_neg_le (n : Int) (len s : Nat) (hn : n < 0)
    (h : resolve_bound n len = some s) : s + 1 ≤ len := by
  unfold resolve_bound at h
  split_ifs at h with h1 h2 h3
  · omega
  · have hs := Option.some.inj h
    have hpos : 0 < n.natAbs := Int.natAbs_pos.mpr (by omega)
    omega

lemma resolve_total (n : Int) (len : Nat) (hmin : isizeMin < n)
    (hneg : n < 0 → n.natAbs ≤ len) : ∃ s, resolve_bound n len = some s := by
  unfold resolve_bound
  split_ifs with h1 h2 h3
  · exact ⟨_, rfl⟩
  · exact absurd h2 (by omega)
  · exact ⟨_, rfl⟩
  · exact absurd (hneg (by omega)) h3

lemma get_negative_start_end_eq (c : Choice) (len s e : Nat)
    (h : c.get_negative_start_end len = some (s, e)) :
    resolve_bound c.start len = some s ∧ resolve_bound c.end' len = some e := by
  unfold Choice.get_negative_start_end at h
  cases hs : resolve_bound c.start len with
  | none => rw [hs] at h; cases h
  | some s' =>
    cases he : resolve_bound c.end' len with
    | none => rw [hs, he] at h; cases h
    | some e' =>
      rw [hs, he] at h
      cases h
      exact ⟨rfl, rfl⟩

/-- Closed form of the negative-indexed strategy: under the strategy's own
precondition (at least one raw bound negative) and successful bound
resolution, no slice-index panic is reachable and the output is the
ascending / descending / empty trichotomy of the source. -/
lemma neg_eq {α : Type} (c : Choice) (l : List α) (s e : Nat)
    (hneg : c.start < 0 ∨ c.end' < 0)
    (hres : c.get_negative_start_end l.length = some (s, e)) :
    c.print_choice_negative l = some (
      if s < e then emit_with_flags (sliceIncl l s (min e (l.length - 1)))
      else if c.start < 0 then
        emit_with_flags ((sliceIncl l (e + 1) (min s (l.length - 1))).reverse ++ sliceIncl l e e)
      else []) := by
  obtain ⟨hs, he⟩ := get_negative_start_end_eq c l.length s e hres
  have hsL : c.start < 0 → s + 1 ≤ l.length := fun h => resolve_bound_neg_le _ _ _ h hs
  have heL : c.end' < 0 → e + 1 ≤ l.length := fun h => resolve_bound_neg_le _ _ _ h he
  have hL : 1 ≤ l.length := by
    rcases hneg with h | h
    · exact Nat.le_trans (Nat.le_add_left 1 s) (hsL h)
    · exact Nat.le_trans (Nat.le_add_left 1 e) (heL h)
  simp only [Choice.print_choice_negative, hres]
  by_cases hse : s < e
  · rw [if_pos hse, if_pos hse, if_neg (by omega : ¬ l.length = 0)]
    have hm : s ≤ min e (l.length - 1) := by
      rcases hneg with h | h
      · have := hsL h; omega
      · have := heL h; omega
    rw [if_pos hm]
    have hmL : min e (l.length - 1) < l.length := by omega
    obtain ⟨t, rest, hd⟩ := drop_cons_of_lt l (min e (l.length - 1)) hmL
    rw [hd]
    have hslice : sliceIncl l s (min e (l.length - 1)) =
        (l.drop s).take (min e (l.length - 1) - s) ++ [t] := by
      unfold sliceIncl
      have h1 : min e (l.length - 1) + 1 - s = (min e (l.length - 1) - s) + 1 := by omega
      rw [h1]
      refine take_succ_of_drop (l.drop s) (min e (l.length - 1) - s) t rest ?_
      rw [List.drop_drop]
      have h2 : s + (min e (l.length - 1) - s) = min e (l.length - 1) := by omega
      rw [h2, hd]
    rw [hslice, emit_with_flags_append_last]
  · rw [if_neg hse, if_neg hse]
    by_cases hst : c.start < 0
    · rw [if_pos hst, if_pos hst, if_neg (by omega : ¬ l.length = 0)]
      have hsL' : s + 1 ≤ l.length := hsL hst
      have hmin : min s (l.length - 1) = s := by omega
      rw [if_pos (by omega : e ≤ min s (l.length - 1))]
      obtain ⟨t, rest, hd⟩ := drop_cons_of_lt l e (by omega)
      rw [hd]
      have hsl1 : sliceIncl l (e + 1) (min s (l.length - 1)) =
          (l.drop (e + 1)).take (min s (l.length - 1) - e) := by
        unfold sliceIncl
        have h1 : min s (l.length - 1) + 1 - (e + 1) = min s (l.length - 1) - e := by omega
        rw [h1]
      have hsl2 : sliceIncl l e e = [t] := by
        unfold sliceIncl
        have h1 : e + 1 - e = 1 := by omega
        rw [h1, hd, List.take_succ_cons, List.take_zero]
      rw [hsl1, hsl2, emit_with_flags_append_last, List.map_reverse]
    · rw [if_neg hst, if_neg hst]

/-- `Choice::print_choice_generic` on a freshly constructed `Choice`, with the
dispatch conditions spelled out on the raw signed bounds. -/
lemma generic_new_eq {α : Type} (sb eb : Int) (l : List α) :
    (Choice.new sb eb).print_choice_generic l =
      (if eb < sb ∧ ¬(sb < 0 ∨ eb < 0) then (Choice.new sb eb).print_choice_reverse l
       else if sb < 0 ∨ eb < 0 then (Choice.new sb eb).print_choice_negative l
       else (Choice.new sb eb).print_choice_forward l) := by
  by_cases h1 : eb < sb <;> by_cases h2 : sb < 0 <;> by_cases h3 : eb < 0 <;>
    simp [Choice.print_choice_generic, Choice.new_reversed, Choice.new_negative_index,
      h1, h2, h3]

/-! ### Every successful selection emits with lookahead-consistent flags -/

lemma forward_shape {α : Type} (c : Choice) (l : List α) (out : List (α × Bool))
    (h : c.print_choice_forward l = some out) : ∃ ts, out = emit_with_flags ts := by
  unfold Choice.print_choice_forward at h
  rcases Option.bind_eq_some.mp h with ⟨l2, _, h2⟩
  rcases Option.map_eq_some'.mp h2 with ⟨range, _, hout⟩
  refine ⟨l2.take (range + 1 - 0).toNat, ?_⟩
  rw [← hout, Choice.print_choice_loop_max_items, loop_go_emit]

lemma reverse_shape {α : Type} (c : Choice) (l : List α) (out : List (α × Bool))
    (h : c.print_choice_reverse l = some out) : ∃ ts, out = emit_with_flags ts := by
  unfold Choice.print_choice_reverse at h
  rcases Option.map_eq_some'.mp h with ⟨l2, _, hout⟩
  exact ⟨_, hout.symm⟩

lemma negative_shape {α : Type} (c : Choice) (l : List α) (out : List (α × Bool))
    (h : c.print_choice_negative l = some out) : ∃ ts, out = emit_with_flags ts := by
  unfold Choice.print_choice_negative at h
  split at h
  · cases h
  · split at h
    · split at h
      · cases h
      · split at h
        · split at h
          · cases h
          · cases h
            exact ⟨_, (emit_with_flags_append_last _ _).symm⟩
        · cases h
    · split at h
      · split at h
        · cases h
        · split at h
          · split at h
            · cases h
            · cases h
              exact ⟨_, (emit_with_flags_append_last _ _).symm⟩
          · cases h
      · cases h
        exact ⟨[], rfl⟩

lemma generic_shape {α : Type} (c : Choice) (l : List α) (out : List (α × Bool))
    (h : c.print_choice_generic l = some out) : ∃ ts, out = emit_with_flags ts := by
  unfold Choice.print_choice_generic at h
  split at h
  · exact reverse_shape c l out h
  · split at h
    · exact negative_shape c l out h
    · exact forward_shape c l out h

/-! ### Character-wise slicing -/

lemma utf8Size_pos (c : Char) : 1 ≤ utf8Size c := by
  unfold utf8Size
  split_ifs <;> omega

lemma byteLen_pos (line : List Char) (h : line ≠ []) : 1 ≤ byteLen line := by
  cases line with
  | nil => exact absurd rfl h
  | cons c rest =>
    have := utf8Size_pos c
    simp only [byteLen]
    omega

lemma sliceChars_at_last : ∀ (line : List Char) (c : Char), line.getLast? = some c →
    sliceChars line (byteLen line - 1) =
      (if utf8Size c = 1 then some line.dropLast else none) := by
  intro line
  induction line with
  | nil => intro c h; cases h
  | cons a rest ih =>
    intro c h
    cases rest with
    | nil =>
      have hc : c = a := by
        simp only [List.getLast?_singleton, Option.some.injEq] at h
        exact h.symm
      subst hc
      have hca := utf8Size_pos c
      have hbl : byteLen [c] = utf8Size c := by simp [byteLen]
      by_cases h1 : utf8Size c = 1
      · have h0 : byteLen [c] - 1 = 0 := by omega
        rw [h0, if_pos h1]
        rfl
      · obtain ⟨k, hk⟩ : ∃ k, byteLen [c] - 1 = k + 1 := ⟨utf8Size c - 2, by omega⟩
        rw [hk, if_neg h1]
        have hk2 : ¬ utf8Size c ≤ k + 1 := by omega
        simp only [sliceChars, if_neg hk2]
    | cons b rest' =>
      rw [List.getLast?_cons_cons] at h
      have hrest : 1 ≤ byteLen (b :: rest') := byteLen_pos _ (by simp)
      have hca := utf8Size_pos a
      have hbl : byteLen (a :: b :: rest') = utf8Size a + byteLen (b :: rest') := rfl
      obtain ⟨k, hk⟩ : ∃ k, byteLen (a :: b :: rest') - 1 = k + 1 :=
        ⟨byteLen (a :: b :: rest') - 2, by omega⟩
      rw [hk]
      have hk' : utf8Size a ≤ k + 1 := by omega
      simp only [sliceChars, if_pos hk']
      have hidx : k + 1 - utf8Size a = byteLen (b :: rest') - 1 := by omega
      rw [hidx, ih c h]
      by_cases h1 : utf8Size c = 1
      · rw [if_pos h1, if_pos h1, Option.map_some']
        rfl
      · rw [if_neg h1, if_neg h1]
        rfl

lemma resolve_bound_neg_lit (n : Int) (len : Nat) (hn : n < 0) (hmin : isizeMin < n)
    (hle : n.natAbs ≤ len) : resolve_bound n len = some (len - n.natAbs) := by
  unfold resolve_bound
  rw [if_neg (by omega), if_neg (by omega), if_pos hle]

/-- The last three tokens, emitted descending as the source does for `-1:-3`
(indices `L-1` down to `L-2`, then `L-3` last), coincide with the reversal of
the ascending slice `[L-3, L-1]`. -/
lemma last_three {α : Type} (l : List α) (hL : 3 ≤ l.length) :
    (sliceIncl l (l.length - 2) (l.length - 1)).reverse ++
      sliceIncl l (l.length - 3) (l.length - 3) =
      (sliceIncl l (l.length - 3) (l.length - 1)).reverse := by
  obtain ⟨x, t1, h1⟩ := drop_cons_of_lt l (l.length - 3) (by omega)
  have hlen : (l.drop (l.length - 3)).length = 3 := by
    rw [List.length_drop]; omega
  rw [h1] at hlen
  simp only [List.length_cons] at hlen
  cases t1 with
  | nil => simp at hlen
  | cons y t2 =>
    cases t2 with
    | nil => simp at hlen
    | cons z t3 =>
      have ht3 : t3 = [] := by
        simp only [List.length_cons] at hlen
        exact List.length_eq_zero.mp (by omega)
      subst ht3
      have h2 : l.drop (l.length - 2) = [y, z] := by
        have hdd := congrArg (List.drop 1) h1
        rw [List.drop_drop] at hdd
        have hred : List.drop 1 [x, y, z] = [y, z] := rfl
        rw [hred] at hdd
        rw [← hdd]
        congr 1
        omega
      have e1 : sliceIncl l (l.length - 2) (l.length - 1) = [y, z] := by
        unfold sliceIncl
        have hi : l.length - 1 + 1 - (l.length - 2) = 2 := by omega
        rw [hi, h2]
        rfl
      have e2 : sliceIncl l (l.length - 3) (l.length - 3) = [x] := by
        unfold sliceIncl
        have hi : l.length - 3 + 1 - (l.length - 3) = 1 := by omega
        rw [hi, h1, List.take_succ_cons, List.take_zero]
      have e3 : sliceIncl l (l.length - 3) (l.length - 1) = [x, y, z] := by
        unfold sliceIncl
        have hi : l.length - 1 + 1 - (l.length - 3) = 3 := by omega
        rw [hi, h1]
        rfl
      rw [e1, e2, e3]
      rfl

/-! ### The claims -/

/-- C1: negative-indexed selection over a materialized sequence of length `L`,
after resolving `start → s`, `end → e` (non-negative bounds pass through, a
negative bound `n` resolves to `L - |n|`, per `get_negative_start_end`):
if `e > s` the emitted tokens are those at indices `s` through
`min(e, L-1)` ascending, inclusive; otherwise if the original `start` was
negative, the tokens at indices `min(s, L-1)` down to `e+1` descending
followed by the token at index `e` last; otherwise nothing. In particular on
any sequence with `L ≥ 3`, range `-1:-3` emits the last three tokens in
reverse order, and `5:-3` with `5 ≥ L` emits nothing. -/
theorem c1 (α : Type) :
    (∀ (l : List α) (sb eb : Int) (s e : Nat),
      (sb < 0 ∨ eb < 0) →
      (Choice.new sb eb).get_negative_start_end l.length = some (s, e) →
      tokensOf ((Choice.new sb eb).print_choice_negative l) =
        some (if s < e then sliceIncl l s (min e (l.length - 1))
          else if sb < 0 then
            (sliceIncl l (e + 1) (min s (l.length - 1))).reverse ++ sliceIncl l e e
          else [])) ∧
    (∀ l : List α, 3 ≤ l.length →
      tokensOf ((Choice.new (-1) (-3)).print_choice_generic l) =
        some ((sliceIncl l (l.length - 3) (l.length - 1)).reverse)) ∧
    (∀ l : List α, 3 ≤ l.length → l.length ≤ 5 →
      tokensOf ((Choice.new 5 (-3)).print_choice_generic l) = some []) := by
  refine ⟨?_, ?_, ?_⟩
  · intro l sb eb s e hneg hres
    rw [neg_eq (Choice.new sb eb) l s e hneg hres]
    simp only [tokensOf, Option.map_some', Choice.new_start]
    by_cases hse : s < e
    · rw [if_pos hse, if_pos hse, map_fst_emit_with_flags]
    · rw [if_neg hse, if_neg hse]
      by_cases hst : sb < 0
      · rw [if_pos hst, if_pos hst, map_fst_emit_with_flags]
      · rw [if_neg hst, if_neg hst]
        rfl
  · intro l hL
    have hr1 : resolve_bound (-1) l.length = some (l.length - 1) := by
      have := resolve_bound_neg_lit (-1) l.length (by norm_num)
        (by rw [isizeMin_eq]; norm_num)
        (by rw [(rfl : ((-1 : Int)).natAbs = 1)]; omega)
      rwa [(rfl : ((-1 : Int)).natAbs = 1)] at this
    have hr3 : resolve_bound (-3) l.length = some (l.length - 3) := by
      have := resolve_bound_neg_lit (-3) l.length (by norm_num)
        (by rw [isizeMin_eq]; norm_num)
        (by rw [(rfl : ((-3 : Int)).natAbs = 3)]; omega)
      rwa [(rfl : ((-3 : Int)).natAbs = 3)] at this
    have hres : (Choice.new (-1) (-3)).get_negative_start_end l.length =
        some (l.length - 1, l.length - 3) := by
      unfold Choice.get_negative_start_end
      rw [Choice.new_start, Choice.new_end, hr1, hr3]
    rw [generic_new_eq,
      if_neg (fun h => h.2 (Or.inl (show ((-1 : Int)) < 0 by norm_num))),
      if_pos (Or.inl (show ((-1 : Int)) < 0 by norm_num)),
      neg_eq (Choice.new (-1) (-3)) l _ _ (Or.inl (show ((-1 : Int)) < 0 by norm_num)) hres,
      if_neg (by omega : ¬ l.length - 1 < l.length - 3)]
    simp only [Choice.new_start]
    rw [if_pos (show ((-1 : Int)) < 0 by norm_num)]
    simp only [tokensOf, Option.map_some', map_fst_emit_with_flags]
    rw [min_self]
    have hi : l.length - 3 + 1 = l.length - 2 := by omega
    rw [hi, last_three l hL]
  · intro l h3 h5
    have hr5 : resolve_bound 5 l.length = some 5 :=
      resolve_bound_nonneg 5 l.length (by norm_num)
    have hr3 : resolve_bound (-3) l.length = some (l.length - 3) := by
      have := resolve_bound_neg_lit (-3) l.length (by norm_num)
        (by rw [isizeMin_eq]; norm_num)
        (by rw [(rfl : ((-3 : Int)).natAbs = 3)]; omega)
      rwa [(rfl : ((-3 : Int)).natAbs = 3)] at this
    have hres : (Choice.new 5 (-3)).get_negative_start_end l.length =
        some (5, l.length - 3) := by
      unfold Choice.get_negative_start_end
      rw [Choice.new_start, Choice.new_end, hr5, hr3]
    rw [generic_new_eq,
      if_neg (fun h => h.2 (Or.inr (show ((-3 : Int)) < 0 by norm_num))),
      if_pos (Or.inr (show ((-3 : Int)) < 0 by norm_num)),
      neg_eq (Choice.new 5 (-3)) l _ _ (Or.inr (show ((-3 : Int)) < 0 by norm_num)) hres,
      if_neg (by omega : ¬ 5 < l.length - 3)]
    simp only [Choice.new_start]
    rw [if_neg (show ¬ ((5 : Int) < 0) by norm_num)]
    rfl

/-- C2, counterexample: the claim says selection never panics and that
negative-offset resolution produces a defined output even when `|n| > L`. On
the two-token input with range `0:-3`, `get_negative_start_end` computes
`vec.len().checked_sub(3)` (which is `None`) and unwraps it — a panic,
modelled as `none`. -/
theorem c2_counterexample :
    (Choice.new 0 (-3)).print_choice_generic [0, 1] = none := by decide

/-- C2, amended: selection never panics *provided every negative bound
resolves*, i.e. each negative bound `n` satisfies `|n| ≤ L` (and is not
`isize::MIN`). Under that proviso, any range partly or wholly outside the
token count still yields a defined (shorter or empty) output. When a negative
bound has `|n| > L` the code panics on an unwrapped `checked_sub`. -/
theorem c2_amended (α : Type) (l : List α) (sb eb : Int)
    (hsmin : isizeMin < sb) (hemin : isizeMin < eb)
    (hsb : sb < 0 → sb.natAbs ≤ l.length) (heb : eb < 0 → eb.natAbs ≤ l.length)
    (hemax : eb ≤ isizeMax) :
    ((Choice.new sb eb).print_choice_generic l).isSome = true := by
  rw [generic_new_eq]
  by_cases hneg : sb < 0 ∨ eb < 0
  · rw [if_neg (fun h => h.2 hneg), if_pos hneg]
    obtain ⟨s, hs⟩ := resolve_total sb l.length hsmin hsb
    obtain ⟨e, he⟩ := resolve_total eb l.length hemin heb
    have hres : (Choice.new sb eb).get_negative_start_end l.length = some (s, e) := by
      unfold Choice.get_negative_start_end
      rw [Choice.new_start, Choice.new_end, hs, he]
    rw [neg_eq (Choice.new sb eb) l s e hneg hres]
    rfl
  · rcases not_or.mp hneg with ⟨hs0, he0⟩
    by_cases hr : eb < sb
    · rw [if_pos ⟨hr, hneg⟩,
        reverse_eq (Choice.new sb eb) l (show (0 : Int) ≤ eb by omega) hr]
      rfl
    · rw [if_neg (fun h => hr h.1), if_neg hneg,
        forward_eq (Choice.new sb eb) l (show (0 : Int) ≤ sb by omega)
          (show sb ≤ eb by omega) hemax]
      rfl

/-- C3: `Choice::new` derives `negative_index` iff `start < 0 || end < 0` and
`reversed` iff `end < start` (raw signed comparisons); dispatch picks exactly
one strategy with priority reverse (when `reversed && !negative_index`), then
negative-indexed (when `negative_index`, regardless of `reversed`), then
forward. -/
theorem c3 (α : Type) (sb eb : Int) (l : List α) :
    ((Choice.new sb eb).negative_index = true ↔ sb < 0 ∨ eb < 0) ∧
    ((Choice.new sb eb).reversed = true ↔ eb < sb) ∧
    (Choice.new sb eb).print_choice_generic l =
      (if eb < sb ∧ ¬(sb < 0 ∨ eb < 0) then (Choice.new sb eb).print_choice_reverse l
       else if sb < 0 ∨ eb < 0 then (Choice.new sb eb).print_choice_negative l
       else (Choice.new sb eb).print_choice_forward l) := by
  refine ⟨?_, ?_, generic_new_eq sb eb l⟩
  · rw [Choice.new_negative_index]
    simp
  · rw [Choice.new_reversed]
    simp

/-- C4: a forward-strategy range (`0 ≤ start ≤ end`, no negative bound) skips
the first `start` tokens and emits at most `end - start + 1` tokens in arrival
order; if the source exhausts first, exactly the tokens produced so far are
emitted (`take` of a short list), not an error. An unbounded `end` is the
sentinel `isize::MAX`, covered by `eb ≤ isizeMax`. -/
theorem c4 (α : Type) (l : List α) (sb eb : Int)
    (h0 : 0 ≤ sb) (h1 : sb ≤ eb) (h2 : eb ≤ isizeMax) :
    tokensOf ((Choice.new sb eb).print_choice_generic l) =
      some ((l.drop sb.toNat).take ((eb - sb).toNat + 1)) := by
  rw [generic_new_eq, if_neg (fun h => absurd h.1 (by omega)),
    if_neg (fun h => by rcases h with h | h <;> omega),
    forward_eq (Choice.new sb eb) l h0 h1 h2]
  simp only [tokensOf, Option.map_some', map_fst_emit_with_flags, Choice.new_start,
    Choice.new_end]

/-- C5: a reverse-strategy range (`0 ≤ end < start`, no negative bound) skips
the first `end` tokens, buffers at most `start - end + 1` further tokens, and
emits the buffer reversed (tokens at indices `start` down to `end`); if the
source exhausts early, exactly the collected tokens are emitted, still
reversed, never an error. -/
theorem c5 (α : Type) (l : List α) (sb eb : Int)
    (h0 : 0 ≤ eb) (h1 : eb < sb) :
    tokensOf ((Choice.new sb eb).print_choice_generic l) =
      some (((l.drop eb.toNat).take ((sb - eb).toNat + 1)).reverse) := by
  rw [generic_new_eq, if_pos ⟨h1, fun h => by rcases h with h | h <;> omega⟩,
    reverse_eq (Choice.new sb eb) l h0 h1]
  simp only [tokensOf, Option.map_some', map_fst_emit_with_flags, Choice.new_start,
    Choice.new_end]

/-- C6, counterexample: the claim says `has_more` is computed solely by
one-token lookahead on the sequence being emitted from, never via an index
check. In the forward strategy on `[10, 20, 30]` with range `0:1`, the token
`20` is emitted with `has_more = false` even though the live iterator the
strategy emits from still holds `30` (so `peek()` is `is_some`): the flag is
`peek().is_some() && i != max_items`, and the trailing-index check
`i != max_items` is what forces `false` here. -/
theorem c6_counterexample :
    (Choice.new 0 1).print_choice_generic [10, 20, 30] = some [(10, true), (20, false)] ∧
    (List.drop 2 [10, 20, 30]).isEmpty = false :=
  ⟨by decide, by decide⟩

/-- C6, amended: in the forward loop, `has_more` equals one-token lookahead on
the *emitted window* — the source truncated to the `max_items + 1` tokens the
loop may emit — computed in the code as `peek().is_some() && i != max_items`;
equivalently, `has_more` is true exactly when another token of the same
selection follows. -/
theorem c6 (α : Type) (l : List α) (max_items : Int) :
    Choice.print_choice_loop_max_items l max_items =
      emit_with_flags (l.take (max_items + 1).toNat) := by
  rw [Choice.print_choice_loop_max_items, loop_go_emit]
  have h : max_items + 1 - 0 = max_items + 1 := by omega
  rw [h]

/-- C7: every emitted token of any successful selection carries `has_more`
equal to "more tokens of this selection follow": re-deriving the flags from
the emitted token list by lookahead (`emit_with_flags`) reproduces the output
exactly, so the last token of a non-empty selection carries `false` and every
other token carries `true`. -/
theorem c7 (α : Type) (c : Choice) (l : List α) (out : List (α × Bool))
    (h : c.print_choice_generic l = some out) :
    out = emit_with_flags (out.map Prod.fst) := by
  obtain ⟨ts, hts⟩ := generic_shape c l out h
  rw [hts, map_fst_emit_with_flags]

/-- C8: for `0 ≤ i ≤ j < L`, the tokens selected by `i:j` (forward strategy)
are the exact reverse of the tokens selected by `j:i` (reverse strategy). -/
theorem c8 (α : Type) (l : List α) (i j : Nat)
    (hij : i ≤ j) (hjl : j < l.length) (hjm : (j : Int) ≤ isizeMax) :
    tokensOf ((Choice.new (i : Int) (j : Int)).print_choice_generic l) =
      (tokensOf ((Choice.new (j : Int) (i : Int)).print_choice_generic l)).map
        List.reverse := by
  have hfwd : tokensOf ((Choice.new (i : Int) (j : Int)).print_choice_generic l) =
      some ((l.drop ((i : Int)).toNat).take (((j : Int) - (i : Int)).toNat + 1)) := by
    rw [generic_new_eq, if_neg (fun h => absurd h.1 (by omega)),
      if_neg (fun h => by rcases h with h | h <;> omega),
      forward_eq (Choice.new (i : Int) (j : Int)) l (show (0 : Int) ≤ (i : Int) by omega)
        (show ((i : Int)) ≤ (j : Int) by omega) hjm]
    simp only [tokensOf, Option.map_some', map_fst_emit_with_flags, Choice.new_start,
      Choice.new_end]
  by_cases hij' : i = j
  · subst hij'
    rw [hfwd, Option.map_some']
    have h0 : ((i : Int) - (i : Int)).toNat = 0 := by omega
    have hi : ((i : Int)).toNat = i := by omega
    rw [h0, hi]
    obtain ⟨t, rest, hd⟩ := drop_cons_of_lt l i hjl
    rw [hd, List.take_succ_cons, List.take_zero]
    rfl
  · have hlt : i < j := Nat.lt_of_le_of_ne hij hij'
    have hrev : tokensOf ((Choice.new (j : Int) (i : Int)).print_choice_generic l) =
        some (((l.drop ((i : Int)).toNat).take (((j : Int) - (i : Int)).toNat + 1)).reverse) := by
      rw [generic_new_eq, if_pos ⟨by omega, fun h => by rcases h with h | h <;> omega⟩,
        reverse_eq (Choice.new (j : Int) (i : Int)) l (show (0 : Int) ≤ (i : Int) by omega)
          (show ((i : Int)) < (j : Int) by omega)]
      simp only [tokensOf, Option.map_some', map_fst_emit_with_flags, Choice.new_start,
        Choice.new_end]
    rw [hfwd, hrev, Option.map_some', List.reverse_reverse]

/-- C9: under the dispatch preconditions no `unwrap` in the forward or
reverse strategy can panic: for any non-negative in-range bounds the whole
selection is defined (`isSome`), whichever of the two strategies dispatch
picks. -/
theorem c9 (α : Type) (l : List α) (sb eb : Int)
    (h0 : 0 ≤ sb) (h1 : 0 ≤ eb) (h2 : eb ≤ isizeMax) :
    ((Choice.new sb eb).print_choice_generic l).isSome = true := by
  rw [generic_new_eq]
  by_cases hr : eb < sb
  · rw [if_pos ⟨hr, fun h => by rcases h with h | h <;> omega⟩,
      reverse_eq (Choice.new sb eb) l h1 hr]
    rfl
  · rw [if_neg (fun h => hr h.1), if_neg (fun h => by rcases h with h | h <;> omega),
      forward_eq (Choice.new sb eb) l h0 (show sb ≤ eb by omega) h2]
    rfl

/-- C10: in character-wise mode `print_choice` slices `line[0..len - 1]`
before tokenizing, unconditionally dropping the final byte. The slice is only
defined for a non-empty line whose final character is a single byte; for the
empty string (`len - 1` underflows) or a line ending in a multi-byte
character (non-boundary slice) the operation panics (`none`) instead of
producing an empty selection; otherwise it yields all characters but the
last. -/
theorem c10 :
    (char_wise_tokens ([] : List Char) = none) ∧
    (∀ (line : List Char) (c : Char), line.getLast? = some c → utf8Size c ≠ 1 →
      char_wise_tokens line = none) ∧
    (∀ (line : List Char) (c : Char), line.getLast? = some c → utf8Size c = 1 →
      char_wise_tokens line = some line.dropLast) := by
  refine ⟨rfl, ?_, ?_⟩
  · intro line c hl h1
    have hne : line ≠ [] := by intro h; subst h; cases hl
    unfold char_wise_tokens
    rw [if_neg (by have := byteLen_pos line hne; omega), sliceChars_at_last line c hl,
      if_neg h1]
  · intro line c hl h1
    have hne : line ≠ [] := by intro h; subst h; cases hl
    unfold char_wise_tokens
    rw [if_neg (by have := byteLen_pos line hne; omega), sliceChars_at_last line c hl,
      if_pos h1]

/-! ### Witnesses: the theorems with hypotheses, instantiated at concrete inputs -/

/-- C1 at concrete inputs: `-1:-3` on three tokens emits them in reverse, and
`5:-3` emits nothing. -/
theorem c1_witness :
    tokensOf ((Choice.new (-1) (-3)).print_choice_negative [10, 20, 30]) = some [30, 20, 10] ∧
    tokensOf ((Choice.new (-1) (-3)).print_choice_generic [10, 20, 30]) = some [30, 20, 10] ∧
    tokensOf ((Choice.new 5 (-3)).print_choice_generic [10, 20, 30]) = some [] :=
  ⟨((c1 Nat).1 [10, 20, 30] (-1) (-3) 2 0 (Or.inl (by decide)) (by decide)).trans (by decide),
   ((c1 Nat).2.1 [10, 20, 30] (by decide)).trans (by decide),
   (c1 Nat).2.2 [10, 20, 30] (by decide) (by decide)⟩

/-- C2 (amended) at a concrete input: `-2:-1` on three tokens is defined. -/
theorem c2_witness :
    ((Choice.new (-2) (-1)).print_choice_generic [1, 2, 3]).isSome = true :=
  c2_amended Nat [1, 2, 3] (-2) (-1) (by decide) (by decide) (by decide) (by decide)
    (by decide)

/-- C4 at a concrete input: range `1:3` on five tokens. -/
theorem c4_witness :
    tokensOf ((Choice.new 1 3).print_choice_generic [0, 1, 2, 3, 4]) = some [1, 2, 3] :=
  (c4 Nat [0, 1, 2, 3, 4] 1 3 (by decide) (by decide) (by decide)).trans (by decide)

/-- C5 at a concrete input: range `3:1` on five tokens. -/
theorem c5_witness :
    tokensOf ((Choice.new 3 1).print_choice_generic [0, 10, 20, 30, 40]) =
      some [30, 20, 10] :=
  (c5 Nat [0, 10, 20, 30, 40] 3 1 (by decide) (by decide)).trans (by decide)

/-- C7 at a concrete input: the output of range `0:1` on three tokens carries
lookahead-consistent flags. -/
theorem c7_witness :
    ([(5, true), (6, false)] : List (Nat × Bool)) =
      emit_with_flags (([(5, true), (6, false)] : List (Nat × Bool)).map Prod.fst) :=
  c7 Nat (Choice.new 0 1) [5, 6, 7] [(5, true), (6, false)] (by decide)

/-- C8 at a concrete input: `0:2` versus `2:0` on three tokens. -/
theorem c8_witness :
    tokensOf ((Choice.new ((0 : Nat) : Int) ((2 : Nat) : Int)).print_choice_generic [1, 2, 3]) =
      (tokensOf ((Choice.new ((2 : Nat) : Int) ((0 : Nat) : Int)).print_choice_generic
        [1, 2, 3])).map List.reverse :=
  c8 Nat [1, 2, 3] 0 2 (by decide) (by decide) (by decide)

/-- C9 at a concrete input: the reversed range `2:0` on a single token is
defined. -/
theorem c9_witness :
    ((Choice.new 2 0).print_choice_generic [7]).isSome = true :=
  c9 Nat [7] 2 0 (by decide) (by decide) (by decide)

/-- C10 at concrete inputs: empty line, line ending in a multi-byte character,
and line ending in a newline. -/
theorem c10_witness :
    char_wise_tokens [] = none ∧
    char_wise_tokens ['a', 'é'] = none ∧
    char_wise_tokens ['h', 'i', '\n'] = some ['h', 'i'] :=
  ⟨c10.1, c10.2.1 ['a', 'é'] 'é' (by decide) (by decide),
   c10.2.2 ['h', 'i', '\n'] '\n' (by decide) (by decide)⟩

end ChooseSpec
